import Mathlib

/-
  Verification of the isofs image-construction pipeline.

  Shallow embedding of the core components of `crates/isofs/src`:
  the logical block allocator (`lba.rs` / `writer.rs`), the sector-aligned
  writer, the filesystem tree model with conflict-resolved merging, the
  derived directory data lengths, the LBA allocation pass, the path-table
  builder, and the `Identifier` constructors of `spec.rs`.

  Modelling conventions:
  * Rust `u32` arithmetic is modelled on `Nat` with explicit `% 2^32`
    where the source performs `u32` operations whose overflow is reachable;
    `u16` casts in the path-table builder are modelled with `% 2^16`.
  * `HashMap<Name, V>` is modelled as an association list `List (String × V)`;
    iteration follows list order (the source's iteration order is the map's
    internal order; all claims proved here are order-independent).
  * File contents are byte lists or a host-file handle with a cached length.
-/

namespace Isofs

def U32 : Nat := 4294967296

def U16 : Nat := 65536

/-- Ceiling division, the quantity `ceil(n / d)` used by the spec's
allocator contract. -/
def divCeil (n d : Nat) : Nat := (n + d - 1) / d

/-- Embedding of `LbaAllocator` from `src/crates/isofs/src/lba.rs` (the copy
in `writer.rs` is line-for-line identical). Both fields are `u32`. -/
structure LbaAllocator where
  sectorSize : Nat
  nextLba : Nat
deriving DecidableEq

/-- Function `LbaAllocator::allocate`: returns the current `next_lba`, then advances it
by `(size + self.sector_size - 1) / self.sector_size` sectors. The addition
`size + sector_size - 1` is `u32` arithmetic, hence the `% 2^32`. -/
def LbaAllocator.allocate (a : LbaAllocator) (size : Nat) : Nat × LbaAllocator :=
  let lba := a.nextLba
  let sectors := ((size + a.sectorSize - 1) % U32) / a.sectorSize
  (lba, { a with nextLba := (a.nextLba + sectors) % U32 })

/-- Embedding of `SectorWriter` from `src/crates/isofs/src/writer.rs`,
lines 21-75. The underlying storage is abstracted away: only the write
positions matter, so the state is `(sector_ix, sector_size, bytes_offset)`. -/
structure SectorWriter where
  sectorIx : Nat
  sectorSize : Nat
  bytesOffset : Nat
deriving DecidableEq

/-- Function `SectorWriter::write_aligned` for a record of `len` bytes: the buffer is
first truncated to the sector size; if it would overflow the remaining space
of the current sector the cursor advances to the start of the next sector.
Returns the byte position written to, the number of bytes written
(an ideal sink accepts the whole buffer), and the new state. -/
def SectorWriter.writeAligned (w : SectorWriter) (len : Nat) :
    (Nat × Nat) × SectorWriter :=
  let len := min len w.sectorSize
  if w.bytesOffset + len > w.sectorSize then
    (((w.sectorIx + 1) * w.sectorSize, len),
      { w with sectorIx := w.sectorIx + 1, bytesOffset := len })
  else
    ((w.sectorIx * w.sectorSize + w.bytesOffset, len),
      { w with bytesOffset := w.bytesOffset + len })

/-- Runs a sequence of `write_aligned` calls, one per record, collecting the
(start position, length) extent of each write. -/
def SectorWriter.runAligned (w : SectorWriter) :
    List Nat → List (Nat × Nat) × SectorWriter
  | [] => ([], w)
  | l :: ls =>
    let r := w.writeAligned l
    let rest := r.2.runAligned ls
    (r.1 :: rest.1, rest.2)

/-- Kinds of identifiers, from `src/crates/isofs/src/spec.rs`. -/
inductive IdentifierKind where
  | aCharacters
  | dCharacters
  | a1Characters
  | d1Characters
  | standardFileIdentifier
  | standardDirectoryIdentifier
  | currentDirectory
  | parentDirectory
  | rootDirectory
deriving DecidableEq

/-- Embedding of `spec::Identifier`: a 256-byte buffer, a stored length and a
padding byte. Bytes are `Nat`s below 256. -/
structure Identifier where
  kind : IdentifierKind
  data : List Nat
  length : Nat
  padding : Nat
deriving DecidableEq

/-- The buffer built by every name-taking `Identifier` constructor in
`spec.rs`: a 256-byte array whose first `min(name.len(), 255)` bytes are
copied from the name and whose remainder is zero. -/
def idBuffer (name : List Nat) : List Nat :=
  name.take 255 ++ List.replicate (256 - min name.length 255) 0

/-- Function `Identifier::as_bytes`: the first `length` bytes of the buffer. -/
def Identifier.asBytes (i : Identifier) : List Nat := i.data.take i.length

/-- Function `Identifier::standard_directory` (`spec.rs` lines 77-91): always `Some`,
buffer from the name, stored length hard-coded to 1. -/
def Identifier.standard_directory (name : List Nat) : Option Identifier :=
  some { kind := .standardDirectoryIdentifier, data := idBuffer name
         length := 1, padding := 0 }

/-- Function `Identifier::system_identifier` (`spec.rs` lines 93-107): always `Some`,
buffer from the name, stored length hard-coded to 1. -/
def Identifier.system_identifier (name : List Nat) : Option Identifier :=
  some { kind := .a1Characters, data := idBuffer name, length := 1, padding := 0 }

/-- Function `Identifier::volume_identifier` (`spec.rs` lines 109-123): always `Some`,
buffer from the name, stored length hard-coded to 1. -/
def Identifier.volume_identifier (name : List Nat) : Option Identifier :=
  some { kind := .d1Characters, data := idBuffer name, length := 1, padding := 0 }

/-- Function `Identifier::volume_set_identifier` (`spec.rs` lines 125-139): always
`Some`, buffer from the name, stored length `min(name.len(), 128)`. -/
def Identifier.volume_set_identifier (name : List Nat) : Option Identifier :=
  some { kind := .d1Characters, data := idBuffer name
         length := min name.length 128, padding := 0 }

theorem idBuffer_length (name : List Nat) : (idBuffer name).length = 256 := by
  simp only [idBuffer, List.length_append, List.length_take, List.length_replicate]
  omega

theorem idBuffer_take_prefix (name : List Nat) :
    (idBuffer name).take (min name.length 255) = name.take 255 := by
  have h : (name.take 255).length = min name.length 255 := by
    simp [Nat.min_comm]
  rw [idBuffer, ← h, List.take_left]

theorem writeAligned_sectorSize (w : SectorWriter) (len : Nat) :
    (w.writeAligned len).2.sectorSize = w.sectorSize := by
  simp only [SectorWriter.writeAligned]
  split <;> rfl

theorem writeAligned_contained (w : SectorWriter) (len : Nat)
    (h : len ≤ w.sectorSize) :
    ∃ k, k * w.sectorSize ≤ (w.writeAligned len).1.1 ∧
      (w.writeAligned len).1.1 + (w.writeAligned len).1.2 ≤ (k + 1) * w.sectorSize := by
  simp only [SectorWriter.writeAligned, Nat.min_eq_left h]
  split
  · dsimp only
    refine ⟨w.sectorIx + 1, le_rfl, ?_⟩
    have : (w.sectorIx + 1 + 1) * w.sectorSize
        = (w.sectorIx + 1) * w.sectorSize + w.sectorSize := by ring
    omega
  · dsimp only
    refine ⟨w.sectorIx, Nat.le_add_right _ _, ?_⟩
    have : (w.sectorIx + 1) * w.sectorSize
        = w.sectorIx * w.sectorSize + w.sectorSize := by ring
    omega

/-- C7: for every sequence of records written through the sector-aligned
writer, where each record's byte length is at most the sector size, every
record's written bytes lie within a single sector (the cursor advances to the
next sector whenever a record would overflow the current one). -/
theorem no_record_split_across_sectors (w : SectorWriter) (ls : List Nat)
    (h : ∀ l ∈ ls, l ≤ w.sectorSize) :
    ∀ p ∈ (w.runAligned ls).1,
      ∃ k, k * w.sectorSize ≤ p.1 ∧ p.1 + p.2 ≤ (k + 1) * w.sectorSize := by
  induction ls generalizing w with
  | nil => intro p hp; simp [SectorWriter.runAligned] at hp
  | cons l ls ih =>
    intro p hp
    simp only [SectorWriter.runAligned, List.mem_cons] at hp
    rcases hp with hp | hp
    · subst hp
      exact writeAligned_contained w l (h l (by simp))
    · have hss := writeAligned_sectorSize w l
      have := ih (w.writeAligned l).2
        (fun l' hl' => by rw [hss]; exact h l' (List.mem_cons_of_mem _ hl')) p hp
      rwa [hss] at this

/-- C7 witness: a concrete run at sector size 2048 with records of 2040 and
100 bytes; the second record starts at the next sector boundary. -/
theorem no_record_split_across_sectors_witness :
    ∃ k, k * 2048 ≤ 12288 ∧ 12288 + 100 ≤ (k + 1) * 2048 :=
  no_record_split_across_sectors ⟨5, 2048, 0⟩ [2040, 100]
    (by intro l hl; fin_cases hl <;> decide) (12288, 100) (by decide)

/-- C6 counterexample: at `sector_size = 2048`, `next_lba = 20`, the call
`allocate(4294967295)` does not advance `next_lba` by
`ceil(4294967295 / 2048) = 2097152` sectors: the `u32` addition
`size + sector_size - 1` wraps, so the advance is 0 sectors and the very next
allocation returns an overlapping address. -/
theorem allocate_overflow_cex :
    ((LbaAllocator.allocate ⟨2048, 20⟩ 4294967295).2.nextLba ≠
      20 + divCeil 4294967295 2048) ∧
    (LbaAllocator.allocate (LbaAllocator.allocate ⟨2048, 20⟩ 4294967295).2 1).1 <
      (LbaAllocator.allocate ⟨2048, 20⟩ 4294967295).1 + divCeil 4294967295 2048 := by
  decide

/-- C6 (amended): provided the rounding computation does not overflow `u32`
(`byte_size + sector_size - 1 < 2^32`) and neither does the advance,
`allocate(byte_size)` returns the current next-address and advances it by
exactly `ceil(byte_size / sector_size)` sectors; consequently the next
allocation returns `addr1 + ceil(s1 / sector_size)`, so consecutive extents
never overlap and addresses are non-decreasing. -/
theorem allocate_ceil_advance (ss next s1 s2 : Nat) (_hss : 0 < ss)
    (h1 : s1 + ss - 1 < U32) (h2 : next + divCeil s1 ss < U32) :
    (LbaAllocator.allocate ⟨ss, next⟩ s1).1 = next ∧
    (LbaAllocator.allocate ⟨ss, next⟩ s1).2.nextLba = next + divCeil s1 ss ∧
    ((LbaAllocator.allocate ⟨ss, next⟩ s1).2.allocate s2).1
      = next + divCeil s1 ss := by
  have hm : (s1 + ss - 1) % U32 = s1 + ss - 1 := Nat.mod_eq_of_lt h1
  have hm2 : (next + (s1 + ss - 1) / ss) % U32 = next + (s1 + ss - 1) / ss :=
    Nat.mod_eq_of_lt (by simpa [divCeil] using h2)
  refine ⟨rfl, ?_, ?_⟩ <;>
    simp [LbaAllocator.allocate, divCeil, hm, hm2]

/-- C6 witness: sector size 2048, next address 20, sizes 4097 then 1. -/
theorem allocate_ceil_advance_witness :
    (LbaAllocator.allocate ⟨2048, 20⟩ 4097).1 = 20 ∧
    (LbaAllocator.allocate ⟨2048, 20⟩ 4097).2.nextLba = 20 + divCeil 4097 2048 ∧
    ((LbaAllocator.allocate ⟨2048, 20⟩ 4097).2.allocate 1).1
      = 20 + divCeil 4097 2048 :=
  allocate_ceil_advance 2048 20 4097 1 (by decide) (by decide) (by decide)

/-- C10 counterexample: `volume_set_identifier`, a name-taking sibling of
`standard_directory` and `system_identifier` in the same `impl` block, does
not set the stored length to 1: on the two-byte name "AB" it stores length 2
and `as_bytes` yields 2 bytes. -/
theorem volume_set_identifier_length_cex :
    (Identifier.volume_set_identifier [65, 66]).map Identifier.length ≠ some 1 ∧
    (Identifier.volume_set_identifier [65, 66]).map
      (fun i => i.asBytes.length) = some 2 := by
  decide

/-- C10 (amended): every name-taking `Identifier` constructor returns `Some`
and copies at most the first 255 bytes of the name into the buffer;
`standard_directory`, `system_identifier` and `volume_identifier` always set
the stored length to 1, so `as_bytes` yields exactly one byte regardless of
the name, while `volume_set_identifier` sets the length to
`min(name length, 128)`. -/
theorem identifier_constructors_spec (name : List Nat) :
    ((Identifier.standard_directory name).map Identifier.length = some 1) ∧
    ((Identifier.system_identifier name).map Identifier.length = some 1) ∧
    ((Identifier.volume_identifier name).map Identifier.length = some 1) ∧
    ((Identifier.volume_set_identifier name).map Identifier.length
      = some (min name.length 128)) ∧
    ((Identifier.standard_directory name).map
      (fun i => i.data.take (min name.length 255)) = some (name.take 255)) ∧
    ((Identifier.volume_set_identifier name).map
      (fun i => i.data.take (min name.length 255)) = some (name.take 255)) ∧
    ((Identifier.standard_directory name).map
      (fun i => i.asBytes.length) = some 1) ∧
    ((Identifier.system_identifier name).map
      (fun i => i.asBytes.length) = some 1) := by
  refine ⟨rfl, rfl, rfl, rfl, ?_, ?_, ?_, ?_⟩ <;>
    simp [Identifier.standard_directory, Identifier.system_identifier,
      Identifier.volume_set_identifier, Identifier.asBytes,
      idBuffer_take_prefix, List.length_take, idBuffer_length]

/-- Error type from `src/crates/isofs/src/error.rs`; only the structural
variant is relevant to the tree model. -/
inductive Error where
  | notAFile (path : List String)
deriving DecidableEq

/-- Embedding of `FileEntryContentInner`: a host file with its cached
metadata length, or an in-memory byte buffer. -/
inductive FileContent where
  | file (len : Nat)
  | inMemory (bytes : List Nat)
deriving DecidableEq

/-- Function `FileEntryContent::extent`: the byte length of the content. -/
def FileContent.extent : FileContent → Nat
  | .file len => len
  | .inMemory bytes => bytes.length

/-- Embedding of `FileEntry` from `writer.rs`. -/
structure FileEntry where
  dataLba : Option Nat
  name : String
  content : FileContent
deriving DecidableEq

/-- Embedding of `DirectoryEntry` from `writer.rs`: the `HashMap`s of
subdirectories and files are modelled as association lists. -/
inductive DirectoryEntry where
  | mk (dataLba : Option Nat) (name : String)
      (dirs : List (String × DirectoryEntry))
      (files : List (String × FileEntry))

def DirectoryEntry.dataLba : DirectoryEntry → Option Nat
  | .mk l _ _ _ => l

def DirectoryEntry.name : DirectoryEntry → String
  | .mk _ n _ _ => n

def DirectoryEntry.dirs : DirectoryEntry → List (String × DirectoryEntry)
  | .mk _ _ ds _ => ds

def DirectoryEntry.files : DirectoryEntry → List (String × FileEntry)
  | .mk _ _ _ fs => fs

/-- Embedding of `RootDirectory` from `writer.rs`: a nameless directory. -/
structure RootDirectory where
  dataLba : Option Nat
  dirs : List (String × DirectoryEntry)
  files : List (String × FileEntry)

/-- Embedding of `OnFileConflict`: the `Handler` variant carries the
resolver function itself. -/
inductive OnFileConflict where
  | overwrite
  | ignore
  | handler (h : FileEntry → FileEntry → FileEntry)

/-- Lookup in an association list (the `HashMap::get` of the model). -/
def findVal {α : Type} : List (String × α) → String → Option α
  | [], _ => none
  | (k, v) :: rest, key => if k = key then some v else findVal rest key

/-- Sets a binding: replaces the value in place if the key is present
(`Entry::Occupied`), otherwise appends the new binding (`Entry::Vacant`). -/
def setVal {α : Type} : List (String × α) → String → α → List (String × α)
  | [], key, v => [(key, v)]
  | (k, v') :: rest, key, v =>
    if k = key then (k, v) :: rest else (k, v') :: setVal rest key v

/-- The per-policy branch of the file-conflict `match` in
`RootDirectory::merge` / `DirectoryEntry::merge`: Overwrite installs the
incoming entry, Ignore keeps the existing one, Handler installs
`handler(existing, incoming)`. -/
def resolveFileConflict (c : OnFileConflict) (existing incoming : FileEntry) :
    FileEntry :=
  match c with
  | .overwrite => incoming
  | .ignore => existing
  | .handler h => h existing incoming

/-- One iteration of the file-merging loop: on a name collision the conflict
policy decides the installed entry, otherwise the incoming file is inserted. -/
def mergeFileInto (self : List (String × FileEntry)) (c : OnFileConflict)
    (name : String) (file : FileEntry) : List (String × FileEntry) :=
  match findVal self name with
  | some existing => setVal self name (resolveFileConflict c existing file)
  | none => self ++ [(name, file)]

/-- The `for (name, file) in other.files` loop of the merge functions. -/
def mergeFiles (self other : List (String × FileEntry)) (c : OnFileConflict) :
    List (String × FileEntry) :=
  other.foldl (fun acc nf => mergeFileInto acc c nf.1 nf.2) self

mutual

/-- Function `DirectoryEntry::merge` (`writer.rs` lines 261-292): colliding
subdirectories are merged recursively, colliding files are resolved by the
conflict policy; `self`'s address and name are kept. -/
def DirectoryEntry.merge (self other : DirectoryEntry) (c : OnFileConflict) :
    DirectoryEntry :=
  match other with
  | .mk _ _ odirs ofiles =>
    .mk self.dataLba self.name (mergeDirs self.dirs odirs c)
      (mergeFiles self.files ofiles c)
termination_by sizeOf other
decreasing_by all_goals simp_wf <;> omega

/-- The `for (name, dir) in other.dirs` loop of the merge functions:
a vacant name is inserted, an occupied one is merged recursively. -/
def mergeDirs (self : List (String × DirectoryEntry))
    (other : List (String × DirectoryEntry)) (c : OnFileConflict) :
    List (String × DirectoryEntry) :=
  match other with
  | [] => self
  | (n, d) :: rest =>
    mergeDirs
      (match findVal self n with
       | some existing => setVal self n (existing.merge d c)
       | none => self ++ [(n, d)])
      rest c
termination_by sizeOf other
decreasing_by all_goals simp_wf <;> omega

end

/-- Function `RootDirectory::merge` (`writer.rs` lines 439-470): same loops as
`DirectoryEntry::merge`, keeping `self`'s address. -/
def RootDirectory.merge (self other : RootDirectory) (c : OnFileConflict) :
    RootDirectory :=
  { self with dirs := mergeDirs self.dirs other.dirs c
              files := mergeFiles self.files other.files c }

/-- Function `RootDirectory::from_directory` (`writer.rs` lines 423-436). -/
def RootDirectory.fromDirectory (d : DirectoryEntry) (emplace : Bool) :
    RootDirectory :=
  match emplace with
  | true => ⟨d.dataLba, d.dirs, d.files⟩
  | false => ⟨none, [(d.name, d)], []⟩

/-- Function `RootDirectory::scaffold` (`writer.rs` lines 349-379): walks the
components in reverse, the deepest directory receiving the given `dirs` and
`files`, every outer one wrapping its successor; an empty component sequence
yields the default (empty) root, discarding `dirs` and `files`. -/
def scaffold (components : List String)
    (dirs : List (String × DirectoryEntry))
    (files : List (String × FileEntry)) : RootDirectory :=
  let tail := components.reverse.foldl
    (fun t part => some (match t with
      | none => DirectoryEntry.mk none part dirs files
      | some t => DirectoryEntry.mk none part [(t.name, t)] []))
    none
  match tail with
  | none => ⟨none, [], []⟩
  | some t => RootDirectory.fromDirectory t false

/-- Function `RootDirectory::insert_file` (`writer.rs` lines 381-418): a path
is its list of (normal) components; the final component is the file name
(`Path::file_name`), the rest (`Path::parent`) seeds the scaffold, which is
then merged into the tree. Returns the `Result` and the final tree (`self`
after the `&mut` call). -/
def RootDirectory.insertFile (self : RootDirectory) (path : List String)
    (content : FileContent) (c : OnFileConflict) :
    Except Error Unit × RootDirectory :=
  match path.getLast? with
  | none => (.error (.notAFile path), self)
  | some fname =>
    let scaf := scaffold path.dropLast []
      [(fname, { dataLba := none, name := fname, content := content })]
    (.ok (), self.merge scaf c)

theorem findVal_setVal_self {α : Type} (l : List (String × α)) (k : String)
    (v : α) : findVal (setVal l k v) k = some v := by
  induction l with
  | nil => simp [setVal, findVal]
  | cons p rest ih =>
    obtain ⟨a, b⟩ := p
    by_cases h : a = k <;> simp [setVal, findVal, h, ih]

theorem findVal_setVal_other {α : Type} (l : List (String × α)) (k k' : String)
    (v : α) (h : k' ≠ k) : findVal (setVal l k v) k' = findVal l k' := by
  induction l with
  | nil => simp [setVal, findVal, Ne.symm h]
  | cons p rest ih =>
    obtain ⟨a, b⟩ := p
    by_cases ha : a = k
    · subst ha
      simp [setVal, findVal, Ne.symm h]
    · simp [setVal, findVal, ha, ih]

theorem findVal_append {α : Type} (l m : List (String × α)) (k : String) :
    findVal (l ++ m) k =
      match findVal l k with
      | some v => some v
      | none => findVal m k := by
  induction l with
  | nil => simp [findVal]
  | cons p rest ih =>
    obtain ⟨a, b⟩ := p
    by_cases hp : a = k <;> simp [findVal, hp, ih]

theorem findVal_mergeFileInto_other (acc : List (String × FileEntry))
    (c : OnFileConflict) (n f : String) (file : FileEntry) (h : n ≠ f) :
    findVal (mergeFileInto acc c n file) f = findVal acc f := by
  unfold mergeFileInto
  cases hn : findVal acc n with
  | some existing => exact findVal_setVal_other _ _ _ _ (Ne.symm h)
  | none =>
    rw [findVal_append]
    cases hf : findVal acc f with
    | some v => rfl
    | none => simp [findVal, h]

theorem findVal_mergeFileInto_self (acc : List (String × FileEntry))
    (c : OnFileConflict) (f : String) (file x : FileEntry)
    (h : findVal acc f = some x) :
    findVal (mergeFileInto acc c f file) f
      = some (resolveFileConflict c x file) := by
  unfold mergeFileInto
  rw [h]
  exact findVal_setVal_self _ _ _

theorem findVal_mergeFiles_not_mem (self other : List (String × FileEntry))
    (c : OnFileConflict) (f : String) (h : f ∉ other.map Prod.fst) :
    findVal (mergeFiles self other c) f = findVal self f := by
  induction other generalizing self with
  | nil => rfl
  | cons p rest ih =>
    obtain ⟨n, g⟩ := p
    simp only [List.map_cons, List.mem_cons] at h
    push_neg at h
    simp only [mergeFiles, List.foldl_cons]
    rw [show (List.foldl (fun acc nf => mergeFileInto acc c nf.1 nf.2)
        (mergeFileInto self c n g) rest)
      = mergeFiles (mergeFileInto self c n g) rest c from rfl]
    rw [ih _ h.2, findVal_mergeFileInto_other _ _ _ _ _ (Ne.symm h.1)]

theorem findVal_mergeFiles (self other : List (String × FileEntry))
    (c : OnFileConflict) (f : String) (fx fy : FileEntry)
    (hself : findVal self f = some fx) (hother : findVal other f = some fy)
    (hnodup : (other.map Prod.fst).Nodup) :
    findVal (mergeFiles self other c) f
      = some (resolveFileConflict c fx fy) := by
  induction other generalizing self with
  | nil => simp [findVal] at hother
  | cons p rest ih =>
    obtain ⟨n, g⟩ := p
    simp only [List.map_cons, List.nodup_cons] at hnodup
    simp only [mergeFiles, List.foldl_cons]
    rw [show (List.foldl (fun acc nf => mergeFileInto acc c nf.1 nf.2)
        (mergeFileInto self c n g) rest)
      = mergeFiles (mergeFileInto self c n g) rest c from rfl]
    by_cases hn : n = f
    · subst hn
      simp [findVal] at hother
      subst hother
      rw [findVal_mergeFiles_not_mem _ _ _ _ hnodup.1,
        findVal_mergeFileInto_self _ _ _ _ _ hself]
    · simp only [findVal, if_neg hn] at hother
      exact ih (mergeFileInto self c n g)
        (by rw [findVal_mergeFileInto_other _ _ _ _ _ hn]; exact hself)
        hother hnodup.2

theorem findVal_mergeDirs_not_mem (self other : List (String × DirectoryEntry))
    (c : OnFileConflict) (g : String) (h : g ∉ other.map Prod.fst) :
    findVal (mergeDirs self other c) g = findVal self g := by
  induction other generalizing self with
  | nil => simp [mergeDirs]
  | cons p rest ih =>
    obtain ⟨n, d⟩ := p
    simp only [List.map_cons, List.mem_cons] at h
    push_neg at h
    rw [mergeDirs, ih _ h.2]
    cases hn : findVal self n with
    | some existing =>
      exact findVal_setVal_other _ _ _ _ h.1
    | none =>
      rw [findVal_append]
      cases hg : findVal self g with
      | some v => rfl
      | none => simp [findVal, Ne.symm h.1]

theorem findVal_mergeDirs (self other : List (String × DirectoryEntry))
    (c : OnFileConflict) (g : String) (dA dB : DirectoryEntry)
    (hself : findVal self g = some dA) (hother : findVal other g = some dB)
    (hnodup : (other.map Prod.fst).Nodup) :
    findVal (mergeDirs self other c) g = some (dA.merge dB c) := by
  induction other generalizing self with
  | nil => simp [findVal] at hother
  | cons p rest ih =>
    obtain ⟨n, d⟩ := p
    simp only [List.map_cons, List.nodup_cons] at hnodup
    rw [mergeDirs]
    by_cases hn : n = g
    · subst hn
      simp [findVal] at hother
      subst hother
      rw [hself]
      rw [findVal_mergeDirs_not_mem _ _ _ _ hnodup.1, findVal_setVal_self]
    · simp only [findVal, if_neg hn] at hother
      refine ih _ ?_ hother hnodup.2
      cases hfn : findVal self n with
      | some existing =>
        rw [findVal_setVal_other _ _ _ _ (Ne.symm hn)]
        exact hself
      | none =>
        rw [findVal_append, hself]

/-- C2: merging tree `B` into tree `A` where both hold a file named `f`
(contents `X` and `Y`) installs `Y` under Overwrite, keeps `X` under Ignore,
and installs `handler(existing = X, incoming = Y)` under Handler; a name
collision between subdirectories is always resolved by a recursive merge,
never by the conflict policy. -/
theorem merge_conflict_policy (A B : RootDirectory) (f g : String)
    (fx fy : FileEntry) (dA dB : DirectoryEntry)
    (hA : findVal A.files f = some fx) (hB : findVal B.files f = some fy)
    (hBn : (B.files.map Prod.fst).Nodup)
    (hdA : findVal A.dirs g = some dA) (hdB : findVal B.dirs g = some dB)
    (hdBn : (B.dirs.map Prod.fst).Nodup) :
    findVal (A.merge B .overwrite).files f = some fy ∧
    findVal (A.merge B .ignore).files f = some fx ∧
    (∀ h : FileEntry → FileEntry → FileEntry,
      findVal (A.merge B (.handler h)).files f = some (h fx fy)) ∧
    (∀ c, findVal (A.merge B c).dirs g = some (dA.merge dB c)) :=
  ⟨findVal_mergeFiles _ _ _ _ _ _ hA hB hBn,
   findVal_mergeFiles _ _ _ _ _ _ hA hB hBn,
   fun h => findVal_mergeFiles _ _ _ _ _ _ hA hB hBn,
   fun c => findVal_mergeDirs _ _ _ _ _ _ hdA hdB hdBn⟩

/-- C2 witness: concrete one-file, one-subdirectory trees. -/
theorem merge_conflict_policy_witness :
    findVal ((RootDirectory.mk none [("d", .mk none "d" [] [])]
        [("f", ⟨none, "f", .inMemory [88]⟩)]).merge
      (RootDirectory.mk none [("d", .mk none "d" [] [])]
        [("f", ⟨none, "f", .inMemory [89]⟩)]) .overwrite).files "f"
      = some ⟨none, "f", .inMemory [89]⟩ ∧
    findVal ((RootDirectory.mk none [("d", .mk none "d" [] [])]
        [("f", ⟨none, "f", .inMemory [88]⟩)]).merge
      (RootDirectory.mk none [("d", .mk none "d" [] [])]
        [("f", ⟨none, "f", .inMemory [89]⟩)]) .ignore).files "f"
      = some ⟨none, "f", .inMemory [88]⟩ ∧
    (∀ h : FileEntry → FileEntry → FileEntry,
      findVal ((RootDirectory.mk none [("d", .mk none "d" [] [])]
          [("f", ⟨none, "f", .inMemory [88]⟩)]).merge
        (RootDirectory.mk none [("d", .mk none "d" [] [])]
          [("f", ⟨none, "f", .inMemory [89]⟩)]) (.handler h)).files "f"
        = some (h ⟨none, "f", .inMemory [88]⟩ ⟨none, "f", .inMemory [89]⟩)) ∧
    (∀ c, findVal ((RootDirectory.mk none [("d", .mk none "d" [] [])]
          [("f", ⟨none, "f", .inMemory [88]⟩)]).merge
        (RootDirectory.mk none [("d", .mk none "d" [] [])]
          [("f", ⟨none, "f", .inMemory [89]⟩)]) c).dirs "d"
        = some ((DirectoryEntry.mk none "d" [] []).merge
            (.mk none "d" [] []) c)) :=
  merge_conflict_policy _ _ "f" "d" _ _ _ _
    (by simp [findVal]) (by simp [findVal]) (by simp)
    (by simp [findVal]) (by simp [findVal]) (by simp)

/-- C9: `insert_file` returns the structural NotAFile error exactly when the
path has no final component, and in that case the tree is returned
completely unchanged (the function returns before scaffolding or merging). -/
theorem insertFile_notAFile_iff (t : RootDirectory) (path : List String)
    (content : FileContent) (c : OnFileConflict) :
    ((t.insertFile path content c).1 = .error (.notAFile path) ↔ path = []) ∧
    (path = [] → (t.insertFile path content c).2 = t) := by
  cases path with
  | nil => exact ⟨by simp [RootDirectory.insertFile], fun _ => rfl⟩
  | cons a l =>
    refine ⟨?_, by simp⟩
    rw [RootDirectory.insertFile]
    rcases hlast : (a :: l).getLast? with _ | fn
    · simp [List.getLast?_eq_none_iff] at hlast
    · simp

/-- C9 witness: the empty path on a concrete one-file tree. -/
theorem insertFile_notAFile_iff_witness :
    (((RootDirectory.mk none [] [("f", ⟨none, "f", .inMemory [88]⟩)]).insertFile
        [] (.inMemory [1]) .overwrite).1 = .error (.notAFile []) ↔ ([] : List String) = []) ∧
    (([] : List String) = [] →
      ((RootDirectory.mk none [] [("f", ⟨none, "f", .inMemory [88]⟩)]).insertFile
        [] (.inMemory [1]) .overwrite).2
      = RootDirectory.mk none [] [("f", ⟨none, "f", .inMemory [88]⟩)]) :=
  insertFile_notAFile_iff _ [] (.inMemory [1]) .overwrite

/-- C1: evaluation at the failing input. On a single-component path the
scaffold receives an empty parent-component sequence and therefore discards
the one-file map it was given, so `insert_file` reports success while leaving
the tree unchanged — the file is never inserted, contradicting the claim
(and the function's own documentation) that the file is placed directly in
the root directory. -/
theorem insertFile_single_component_drops_file :
    (RootDirectory.insertFile ⟨none, [], []⟩ ["README"]
      (.inMemory [104, 105]) .overwrite)
    = (.ok (), ⟨none, [], []⟩) := by
  simp [RootDirectory.insertFile, scaffold, RootDirectory.merge,
    mergeFiles, mergeDirs]

/-- Modelled from the spec: the record codec (`crate::serialize`, not under
`src/`) reports each directory record's encoded byte length as the fixed
33-byte header plus the identifier length, padded to an even total — compare
the fixed 34-byte `.` and `..` entries (33 + identifier length 1). -/
def recordLength (idLen : Nat) : Nat := 33 + idLen + (33 + idLen) % 2

/-- Modelled from the spec: the identifier extent reported by the
(out-of-`src`) `standard_file_identifier` / `standard_directory_identifier`
constructors is the name's byte length; names are bounded to 255 bytes by
`ArrayString<U255>`. -/
def idLength (name : String) : Nat := min name.utf8ByteSize 255

/-- Fields of `spec::DirectoryRecord` that determine sizes and addresses
(recording date and flags carry no size information and are omitted). -/
structure DirectoryRecord where
  extentLocation : Nat
  dataLength : Nat
  fileIdentifierLength : Nat
deriving DecidableEq

/-- Modelled from the spec: `DirectoryRecord::extent` (in the out-of-`src`
codec) depends only on the identifier length. -/
def DirectoryRecord.extent (r : DirectoryRecord) : Nat :=
  recordLength r.fileIdentifierLength

/-- Function `FileEntry::directory_record` (`writer.rs` lines 216-234):
`extent_location` is the assigned address or 0, `data_length` is the content
extent cast to `u32`, the identifier is built from the file name. -/
def FileEntry.directoryRecord (f : FileEntry) : DirectoryRecord :=
  { extentLocation := f.dataLba.getD 0
    dataLength := f.content.extent % U32
    fileIdentifierLength := idLength f.name }

/-- The extent the source's `child.directory_record(context).extent()` call
reports for a child directory: it depends only on the child's name
(`directoryRecord_extent` below proves the agreement with
`DirectoryEntry.directoryRecord`), which keeps `directoryRecord` itself
non-recursive. -/
def childDirRecordExtent (d : DirectoryEntry) : Nat :=
  recordLength (idLength d.name)

/-- Sum of the encoded directory-record extents of a directory's files. -/
def fileRecordsExtentSum (fs : List (String × FileEntry)) : Nat :=
  (fs.map fun nf => nf.2.directoryRecord.extent).sum

/-- Sum of the encoded directory-record extents of a directory's
subdirectories. -/
def dirRecordsExtentSum (ds : List (String × DirectoryEntry)) : Nat :=
  (ds.map fun nd => childDirRecordExtent nd.2).sum

/-- Function `DirectoryEntry::directory_record` (`writer.rs` lines 294-323):
the derived `data_length` is the sum of every immediate child's encoded
directory-record extent (files first, then subdirectories) plus `2 * 34`
bytes for the `.` and `..` entries, as a `u32`. -/
def DirectoryEntry.directoryRecord (d : DirectoryEntry) : DirectoryRecord :=
  match d with
  | .mk lba nm ds fs =>
    { extentLocation := lba.getD 0
      dataLength := (fileRecordsExtentSum fs + dirRecordsExtentSum ds + 2 * 34) % U32
      fileIdentifierLength := idLength nm }

/-- Fields of `spec::RootDirectoryRecord` that determine sizes and
addresses. -/
structure RootDirectoryRecord where
  extentLocation : Nat
  dataLength : Nat
deriving DecidableEq

/-- Function `RootDirectory::root_directory_record` (`writer.rs` lines
472-493): the same data-length derivation as `directory_record`. -/
def RootDirectory.rootDirectoryRecord (r : RootDirectory) : RootDirectoryRecord :=
  { extentLocation := r.dataLba.getD 0
    dataLength :=
      (fileRecordsExtentSum r.files + dirRecordsExtentSum r.dirs + 2 * 34) % U32 }

/-- The derived data length of a directory entry. -/
def DirectoryEntry.dataLength (d : DirectoryEntry) : Nat :=
  d.directoryRecord.dataLength

/-- The derived data length of the root directory. -/
def RootDirectory.dataLength (r : RootDirectory) : Nat :=
  r.rootDirectoryRecord.dataLength

theorem directoryRecord_extent (d : DirectoryEntry) :
    d.directoryRecord.extent = childDirRecordExtent d := by
  cases d
  rfl

theorem dirRecordsExtentSum_eq_map_record (ds : List (String × DirectoryEntry)) :
    dirRecordsExtentSum ds = (ds.map fun nd => nd.2.directoryRecord.extent).sum := by
  unfold dirRecordsExtentSum
  induction ds with
  | nil => rfl
  | cons p rest ih => simp [ih, directoryRecord_extent]

/-- C4: for every directory (root included), the directory record's data
length equals the sum over all immediate children — files and subdirectories
alike — of each child's encoded directory-record extent, plus 2 × 34 bytes
for the `.` and `..` entries (whenever that `u32` sum does not overflow);
and the root-level derivation (`root_directory_record`, used both by the
allocation pass and at descriptor emission) computes exactly the same value
as the directory-level derivation on the same children, so the two values
always agree for an unmodified tree. -/
theorem directory_data_length_formula (d : DirectoryEntry)
    (h : fileRecordsExtentSum d.files + dirRecordsExtentSum d.dirs + 2 * 34 < U32) :
    d.directoryRecord.dataLength
      = (d.files.map fun nf => nf.2.directoryRecord.extent).sum
        + (d.dirs.map fun nd => nd.2.directoryRecord.extent).sum + 2 * 34 ∧
    (RootDirectory.mk d.dataLba d.dirs d.files).rootDirectoryRecord.dataLength
      = d.directoryRecord.dataLength := by
  obtain ⟨lba, nm, ds, fs⟩ := d
  simp only [DirectoryEntry.dirs, DirectoryEntry.files] at h ⊢
  constructor
  · show (fileRecordsExtentSum fs + dirRecordsExtentSum ds + 2 * 34) % U32 = _
    rw [Nat.mod_eq_of_lt h, dirRecordsExtentSum_eq_map_record]
    rfl
  · rfl

/-- C4 witness: a directory with one subdirectory and one two-byte file. -/
theorem directory_data_length_formula_witness :
    (DirectoryEntry.mk none "D" [("A", .mk none "A" [] [])]
        [("F", ⟨none, "F", .inMemory [104, 105]⟩)]).directoryRecord.dataLength
      = ((([("F", (⟨none, "F", .inMemory [104, 105]⟩ : FileEntry))]).map
            fun nf => nf.2.directoryRecord.extent).sum
        + (([("A", (DirectoryEntry.mk none "A" [] []))]).map
            fun nd => nd.2.directoryRecord.extent).sum + 2 * 34) ∧
    (RootDirectory.mk none [("A", .mk none "A" [] [])]
        [("F", ⟨none, "F", .inMemory [104, 105]⟩)]).rootDirectoryRecord.dataLength
      = (DirectoryEntry.mk none "D" [("A", .mk none "A" [] [])]
          [("F", ⟨none, "F", .inMemory [104, 105]⟩)]).directoryRecord.dataLength :=
  directory_data_length_formula
    (.mk none "D" [("A", .mk none "A" [] [])]
      [("F", ⟨none, "F", .inMemory [104, 105]⟩)])
    (by decide)

/-- Walks a chain of subdirectory names below a directory entry. -/
def goPath : DirectoryEntry → List String → Option DirectoryEntry
  | d, [] => some d
  | d, c :: p =>
    match findVal d.dirs c with
    | some child => goPath child p
    | none => none

/-- Walks a chain of subdirectory names from the root; the empty path does
not name a directory entry. -/
def RootDirectory.navigate (r : RootDirectory) : List String → Option DirectoryEntry
  | [] => none
  | c :: p =>
    match findVal r.dirs c with
    | some child => goPath child p
    | none => none

/-- The single-branch chain a scaffold builds: the node named `a`, then one
node per component of `rest`, the deepest node carrying `ds` and `fs`. -/
def chainFrom (a : String) (rest : List String)
    (ds : List (String × DirectoryEntry)) (fs : List (String × FileEntry)) :
    DirectoryEntry :=
  match rest with
  | [] => .mk none a ds fs
  | b :: rest => .mk none a [(b, chainFrom b rest ds fs)] []

theorem chainFrom_name (a : String) (rest : List String) (ds) (fs) :
    (chainFrom a rest ds fs).name = a := by
  cases rest <;> rfl

theorem scaffold_cons (a : String) (rest : List String)
    (ds : List (String × DirectoryEntry)) (fs : List (String × FileEntry)) :
    scaffold (a :: rest) ds fs = ⟨none, [(a, chainFrom a rest ds fs)], []⟩ := by
  have key : ∀ (rest : List String) (a : String),
      (List.foldl (fun t part => some (match t with
        | none => DirectoryEntry.mk none part ds fs
        | some t => DirectoryEntry.mk none part [(t.name, t)] []))
        none (a :: rest).reverse)
      = some (chainFrom a rest ds fs) := by
    intro rest
    induction rest with
    | nil => intro a; rfl
    | cons b rest' ih =>
      intro a
      rw [show (a :: b :: rest').reverse = (b :: rest').reverse ++ [a] from
        List.reverse_cons a (b :: rest')]
      rw [List.foldl_append, ih b]
      simp [chainFrom, chainFrom_name]
  simp only [scaffold, key rest a]
  simp [RootDirectory.fromDirectory, chainFrom_name]

theorem merge_mk (d : DirectoryEntry) (l : Option Nat) (x : String)
    (ds : List (String × DirectoryEntry)) (fs : List (String × FileEntry))
    (c : OnFileConflict) :
    d.merge (.mk l x ds fs) c
      = .mk d.dataLba d.name (mergeDirs d.dirs ds c) (mergeFiles d.files fs c) := by
  rw [DirectoryEntry.merge]

theorem merge_name (d o : DirectoryEntry) (c : OnFileConflict) :
    (d.merge o c).name = d.name := by
  cases o with
  | mk l x ds fs =>
    rw [merge_mk]
    rfl

theorem dirRecordsExtentSum_setVal (l : List (String × DirectoryEntry))
    (k : String) (v d : DirectoryEntry) (hfind : findVal l k = some d)
    (hname : v.name = d.name) :
    dirRecordsExtentSum (setVal l k v) = dirRecordsExtentSum l := by
  induction l with
  | nil => simp [findVal] at hfind
  | cons p rest ih =>
    obtain ⟨a, b⟩ := p
    by_cases ha : a = k
    · subst ha
      simp [findVal] at hfind
      subst hfind
      simp [setVal, dirRecordsExtentSum, childDirRecordExtent, hname]
    · simp only [findVal, if_neg ha] at hfind
      simp [setVal, ha, dirRecordsExtentSum] at ih ⊢
      exact ih hfind

theorem fileRecord_extent_lt (f : FileEntry) :
    f.directoryRecord.extent + 2 * 34 < U32 := by
  have h : idLength f.name ≤ 255 := Nat.min_le_right _ _
  simp only [FileEntry.directoryRecord, DirectoryRecord.extent, recordLength, U32]
  omega

theorem dataLength_of_empty (d : DirectoryEntry) (hdirs : d.dirs = [])
    (hfiles : d.files = []) : d.dataLength = 2 * 34 := by
  obtain ⟨l, x, ds, fs⟩ := d
  simp only [DirectoryEntry.dirs, DirectoryEntry.files] at hdirs hfiles
  subst hdirs; subst hfiles
  simp [DirectoryEntry.dataLength, DirectoryEntry.directoryRecord,
    fileRecordsExtentSum, dirRecordsExtentSum, U32]

/-- Per-level effect of merging a one-file scaffold chain into a tree: the
target directory (reached by the chain's path, assumed empty) gains exactly
the file; every directory along the path keeps its data length (its children
keep their names, and a directory record's extent depends only on the
name); directories at other paths are untouched. -/
theorem merge_chain_spec (n : String) (fe : FileEntry) (c : OnFileConflict) :
    ∀ (rest : List String) (x : String) (d D : DirectoryEntry),
      goPath d rest = some D → D.dirs = [] → D.files = [] →
      (goPath (d.merge (chainFrom x rest [] [(n, fe)]) c) rest
          = some (.mk D.dataLba D.name [] [(n, fe)])) ∧
      ((d.merge (chainFrom x rest [] [(n, fe)]) c).dataLength
          = d.dataLength
            + (if rest = [] then fe.directoryRecord.extent else 0)) ∧
      (∀ q, (∃ r, q ++ r = rest) → q ≠ rest →
        (goPath (d.merge (chainFrom x rest [] [(n, fe)]) c) q).map
            DirectoryEntry.dataLength
          = (goPath d q).map DirectoryEntry.dataLength) := by
  intro rest
  induction rest with
  | nil =>
    intro x d D hgo hdirs hfiles
    simp only [goPath, Option.some.injEq] at hgo
    subst hgo
    obtain ⟨l, y, ds, fs⟩ := d
    simp only [DirectoryEntry.dirs, DirectoryEntry.files] at hdirs hfiles
    subst hdirs; subst hfiles
    rw [chainFrom, merge_mk]
    refine ⟨?_, ?_, ?_⟩
    · simp [goPath, mergeDirs, mergeFiles, mergeFileInto, findVal,
        DirectoryEntry.dirs, DirectoryEntry.files, DirectoryEntry.dataLba,
        DirectoryEntry.name]
    · have hlt := fileRecord_extent_lt fe
      simp only [DirectoryEntry.dataLength, DirectoryEntry.directoryRecord,
        DirectoryEntry.dirs, DirectoryEntry.files, mergeDirs, mergeFiles,
        List.foldl, mergeFileInto, findVal, List.nil_append,
        fileRecordsExtentSum, dirRecordsExtentSum, List.map_nil, List.sum_nil,
        List.map_cons, List.sum_cons, if_pos rfl]
      rw [Nat.mod_eq_of_lt (by simpa using hlt),
        Nat.mod_eq_of_lt (by simp [U32])]
      simp [FileEntry.directoryRecord, DirectoryRecord.extent]
      omega
    · intro q hq hne
      rcases hq with ⟨r, hr⟩
      have : q = [] := by
        cases q with
        | nil => rfl
        | cons _ _ => simp at hr
      exact absurd this hne
  | cons b rest' ih =>
    intro x d D hgo hdirs hfiles
    obtain ⟨l, y, ds, fs⟩ := d
    simp only [goPath, DirectoryEntry.dirs] at hgo
    rcases hfb : findVal ds b with _ | db
    · rw [hfb] at hgo; simp at hgo
    · rw [hfb] at hgo
      simp only at hgo
      rw [chainFrom, merge_mk]
      simp only [DirectoryEntry.dirs, DirectoryEntry.files,
        DirectoryEntry.dataLba, DirectoryEntry.name]
      have hmerged :
          mergeDirs ds [(b, chainFrom b rest' [] [(n, fe)])] c
            = setVal ds b (db.merge (chainFrom b rest' [] [(n, fe)]) c) := by
        rw [mergeDirs, hfb, mergeDirs]
      obtain ⟨ihgo, ihlen, ihq⟩ := ih b db D hgo hdirs hfiles
      have hlen2 :
          (DirectoryEntry.mk l y
              (mergeDirs ds [(b, chainFrom b rest' [] [(n, fe)])] c)
              (mergeFiles fs [] c)).dataLength
            = (DirectoryEntry.mk l y ds fs).dataLength := by
        simp only [DirectoryEntry.dataLength, DirectoryEntry.directoryRecord]
        rw [show mergeFiles fs [] c = fs from rfl, hmerged,
          dirRecordsExtentSum_setVal ds b _ db hfb (merge_name _ _ _)]
      refine ⟨?_, ?_, ?_⟩
      · simp only [goPath, DirectoryEntry.dirs, hmerged, findVal_setVal_self]
        exact ihgo
      · rw [hlen2, if_neg (List.cons_ne_nil b rest'), Nat.add_zero]
      · intro q hq hne
        cases q with
        | nil =>
          simp only [goPath, Option.map]
          exact congrArg some hlen2
        | cons q0 q' =>
          rcases hq with ⟨r, hr⟩
          simp only [List.cons_append, List.cons.injEq] at hr
          obtain ⟨hq0, hr'⟩ := hr
          subst hq0
          have hq'ne : q' ≠ rest' := by
            intro hcon
            exact hne (by rw [hcon])
          simp only [goPath, DirectoryEntry.dirs, hmerged, findVal_setVal_self, hfb]
          exact ihq q' ⟨r, hr'⟩ hq'ne

theorem dataLength_single_file (l : Option Nat) (y n : String) (fe : FileEntry) :
    (DirectoryEntry.mk l y [] [(n, fe)]).dataLength
      = 2 * 34 + fe.directoryRecord.extent := by
  have hlt := fileRecord_extent_lt fe
  simp only [DirectoryEntry.dataLength, DirectoryEntry.directoryRecord,
    fileRecordsExtentSum, dirRecordsExtentSum, List.map_nil, List.sum_nil,
    List.map_cons, List.sum_cons]
  rw [Nat.mod_eq_of_lt (by omega)]
  omega

/-- C5 counterexample: a root with one empty subdirectory `A`; inserting the
one-byte file `F` into `A` (encoded record size 34) changes `A`'s data
length by exactly 34, but the root — an ancestor of `A` — keeps its data
length unchanged, because an ancestor's data length sums only its immediate
children's record extents, which depend on names alone. The claim demands
the root's data length change by 34 as well. -/
theorem insert_ancestor_data_length_cex :
    ((RootDirectory.mk none [("A", .mk none "A" [] [])] []).insertFile
        ["A", "F"] (.inMemory [120]) .overwrite).2.dataLength
      = (RootDirectory.mk none [("A", .mk none "A" [] [])] []).dataLength ∧
    (((RootDirectory.mk none [("A", .mk none "A" [] [])] []).insertFile
        ["A", "F"] (.inMemory [120]) .overwrite).2.navigate ["A"]).map
        DirectoryEntry.dataLength
      = some ((DirectoryEntry.mk none "A" [] []).dataLength
          + (FileEntry.directoryRecord ⟨none, "F", .inMemory [120]⟩).extent) ∧
    (FileEntry.directoryRecord ⟨none, "F", .inMemory [120]⟩).extent ≠ 0 := by
  have h1 : ((RootDirectory.mk none [("A", .mk none "A" [] [])] []).insertFile
      ["A", "F"] (.inMemory [120]) .overwrite).2
      = RootDirectory.mk none
          [("A", .mk none "A" [] [("F", ⟨none, "F", .inMemory [120]⟩)])] [] := by
    rw [RootDirectory.insertFile]
    rw [show (["A", "F"] : List String) = ["A"] ++ ["F"] from rfl,
      List.getLast?_concat, List.dropLast_concat]
    simp only [scaffold_cons, chainFrom]
    rw [RootDirectory.merge]
    simp [mergeDirs, findVal, setVal, merge_mk, mergeFiles, mergeFileInto,
      DirectoryEntry.dirs, DirectoryEntry.files, DirectoryEntry.dataLba,
      DirectoryEntry.name]
  rw [h1]
  refine ⟨by decide, by decide, by decide⟩

/-- C5 (amended): inserting one file of encoded directory-record size `s`
into an empty directory `D` (reached by a non-empty path, per the C1
single-component defect) changes `D`'s computed data length by exactly `s`,
leaves the root's data length unchanged, and leaves the data length of every
intermediate ancestor of `D` unchanged as well: an ancestor's data length
sums only its immediate children's encoded record extents, which depend only
on the children's names. -/
theorem insert_into_empty_dir_data_length (t : RootDirectory) (a : String)
    (p : List String) (n : String) (content : FileContent) (c : OnFileConflict)
    (D : DirectoryEntry) (hD : t.navigate (a :: p) = some D)
    (hdirs : D.dirs = []) (hfiles : D.files = []) :
    ((t.insertFile (a :: (p ++ [n])) content c).2.navigate (a :: p)).map
        DirectoryEntry.dataLength
      = some (D.dataLength
          + (FileEntry.directoryRecord ⟨none, n, content⟩).extent) ∧
    (t.insertFile (a :: (p ++ [n])) content c).2.dataLength = t.dataLength ∧
    (∀ q, (∃ r, q ++ r = a :: p) → q ≠ a :: p →
      ((t.insertFile (a :: (p ++ [n])) content c).2.navigate q).map
          DirectoryEntry.dataLength
        = (t.navigate q).map DirectoryEntry.dataLength) := by
  have hins : (t.insertFile (a :: (p ++ [n])) content c).2
      = RootDirectory.mk t.dataLba
          (mergeDirs t.dirs
            [(a, chainFrom a p [] [(n, ⟨none, n, content⟩)])] c) t.files := by
    rw [RootDirectory.insertFile]
    rw [show a :: (p ++ [n]) = (a :: p) ++ [n] from rfl,
      List.getLast?_concat, List.dropLast_concat]
    simp only [scaffold_cons]
    rw [RootDirectory.merge]
    rfl
  simp only [RootDirectory.navigate] at hD
  rcases hfa : findVal t.dirs a with _ | ta
  · rw [hfa] at hD; simp at hD
  · rw [hfa] at hD
    have hmerged : mergeDirs t.dirs
        [(a, chainFrom a p [] [(n, ⟨none, n, content⟩)])] c
        = setVal t.dirs a
            (ta.merge (chainFrom a p [] [(n, ⟨none, n, content⟩)]) c) := by
      rw [mergeDirs, hfa, mergeDirs]
    obtain ⟨mg, ml, mq⟩ :=
      merge_chain_spec n ⟨none, n, content⟩ c p a ta D hD hdirs hfiles
    refine ⟨?_, ?_, ?_⟩
    · rw [hins]
      simp only [RootDirectory.navigate, hmerged, findVal_setVal_self]
      rw [mg]
      simp only [Option.map_some']
      rw [dataLength_single_file, dataLength_of_empty D hdirs hfiles,
        Nat.add_comm]
    · rw [hins]
      simp only [RootDirectory.dataLength, RootDirectory.rootDirectoryRecord,
        hmerged]
      rw [dirRecordsExtentSum_setVal t.dirs a _ ta hfa (merge_name _ _ _)]
    · intro q hq hne
      cases q with
      | nil => rw [hins]; rfl
      | cons q0 q' =>
        rcases hq with ⟨r, hr⟩
        simp only [List.cons_append, List.cons.injEq] at hr
        obtain ⟨hq0, hr'⟩ := hr
        subst hq0
        have hq'ne : q' ≠ p := fun hcon => hne (by rw [hcon])
        rw [hins]
        simp only [RootDirectory.navigate, hmerged, findVal_setVal_self, hfa]
        exact mq q' ⟨r, hr'⟩ hq'ne

/-- C5 witness: inserting `F` (one byte, record size 34) into the empty
directory `A` of a root that also holds a sibling subdirectory `B`. -/
theorem insert_into_empty_dir_data_length_witness :
    (((RootDirectory.mk none
          [("A", .mk none "A" [] []), ("B", .mk none "B" [] [])] []).insertFile
        ("A" :: ([] ++ ["F"])) (.inMemory [120]) .overwrite).2.navigate
          ("A" :: [])).map DirectoryEntry.dataLength
      = some ((DirectoryEntry.mk none "A" [] []).dataLength
          + (FileEntry.directoryRecord ⟨none, "F", .inMemory [120]⟩).extent) ∧
    ((RootDirectory.mk none
          [("A", .mk none "A" [] []), ("B", .mk none "B" [] [])] []).insertFile
        ("A" :: ([] ++ ["F"])) (.inMemory [120]) .overwrite).2.dataLength
      = (RootDirectory.mk none
          [("A", .mk none "A" [] []), ("B", .mk none "B" [] [])] []).dataLength ∧
    (∀ q, (∃ r, q ++ r = "A" :: ([] : List String)) → q ≠ "A" :: [] →
      (((RootDirectory.mk none
            [("A", .mk none "A" [] []), ("B", .mk none "B" [] [])] []).insertFile
          ("A" :: ([] ++ ["F"])) (.inMemory [120]) .overwrite).2.navigate q).map
          DirectoryEntry.dataLength
        = ((RootDirectory.mk none
            [("A", .mk none "A" [] []), ("B", .mk none "B" [] [])] []).navigate
              q).map DirectoryEntry.dataLength) :=
  insert_into_empty_dir_data_length
    (RootDirectory.mk none
      [("A", .mk none "A" [] []), ("B", .mk none "B" [] [])] [])
    "A" [] "F" (.inMemory [120]) .overwrite
    (.mk none "A" [] []) rfl rfl rfl

/-- Function `FileEntry::allocate_lbas` (`writer.rs` lines 236-239): the file
receives the allocator's next address, sized by its record's data length. -/
def FileEntry.allocateLbas (f : FileEntry) (a : LbaAllocator) :
    FileEntry × LbaAllocator :=
  let r := a.allocate f.directoryRecord.dataLength
  ({ f with dataLba := some r.1 }, r.2)

/-- The `for file in self.files.values_mut()` loop of the allocation pass. -/
def allocateFileList :
    List (String × FileEntry) → LbaAllocator → List (String × FileEntry) × LbaAllocator
  | [], a => ([], a)
  | (k, f) :: rest, a =>
    let r := f.allocateLbas a
    let rs := allocateFileList rest r.2
    ((k, r.1) :: rs.1, rs.2)

mutual

/-- Function `DirectoryEntry::allocate_lbas` (`writer.rs` lines 325-335):
the directory takes the next address sized by its derived data length, then
the subdirectories are allocated, then the files. -/
def DirectoryEntry.allocateLbas (d : DirectoryEntry) (a : LbaAllocator) :
    DirectoryEntry × LbaAllocator :=
  match d with
  | .mk lba nm ds fs =>
    let r := a.allocate (DirectoryEntry.mk lba nm ds fs).dataLength
    let rd := allocateDirList ds r.2
    let rf := allocateFileList fs rd.2
    (.mk (some r.1) nm rd.1 rf.1, rf.2)
termination_by sizeOf d
decreasing_by all_goals simp_wf <;> omega

/-- The `for dir in self.dirs.values_mut()` loop of the allocation pass. -/
def allocateDirList :
    List (String × DirectoryEntry) → LbaAllocator →
      List (String × DirectoryEntry) × LbaAllocator
  | [], a => ([], a)
  | (k, d) :: rest, a =>
    let r := d.allocateLbas a
    let rs := allocateDirList rest r.2
    ((k, r.1) :: rs.1, rs.2)
termination_by l _ => sizeOf l
decreasing_by all_goals simp_wf <;> omega

end

/-- Function `RootDirectory::allocate_lbas` (`writer.rs` lines 495-505):
same shape as the directory-entry pass, sized by the root record. -/
def RootDirectory.allocateLbas (r : RootDirectory) (a : LbaAllocator) :
    RootDirectory × LbaAllocator :=
  let s := a.allocate r.rootDirectoryRecord.dataLength
  let rd := allocateDirList r.dirs s.2
  let rf := allocateFileList r.files rd.2
  (⟨some s.1, rd.1, rf.1⟩, rf.2)

/-- A file entry with its assigned address erased; the "shape" the
allocation pass may depend on. -/
def FileEntry.eraseLba (f : FileEntry) : FileEntry := { f with dataLba := none }

/-- Erases every file's assigned address. -/
def eraseFileList (fs : List (String × FileEntry)) : List (String × FileEntry) :=
  fs.map fun nf => (nf.1, nf.2.eraseLba)

mutual

/-- A directory entry with every assigned address erased. -/
def DirectoryEntry.eraseLba : DirectoryEntry → DirectoryEntry
  | .mk _ nm ds fs => .mk none nm (eraseDirList ds) (eraseFileList fs)
termination_by d => sizeOf d
decreasing_by all_goals simp_wf <;> omega

/-- Erases every subdirectory's assigned addresses. -/
def eraseDirList : List (String × DirectoryEntry) → List (String × DirectoryEntry)
  | [] => []
  | (k, d) :: rest => (k, d.eraseLba) :: eraseDirList rest
termination_by l => sizeOf l
decreasing_by all_goals simp_wf <;> omega

end

/-- The root tree with every assigned address erased. -/
def RootDirectory.eraseLba (r : RootDirectory) : RootDirectory :=
  ⟨none, eraseDirList r.dirs, eraseFileList r.files⟩

theorem eraseLba_name (d : DirectoryEntry) : d.eraseLba.name = d.name := by
  cases d
  simp [DirectoryEntry.eraseLba, DirectoryEntry.name]

theorem eraseFileList_extentSum (fs : List (String × FileEntry)) :
    fileRecordsExtentSum (eraseFileList fs) = fileRecordsExtentSum fs := by
  induction fs with
  | nil => rfl
  | cons p rest ih =>
    simp only [eraseFileList, List.map_cons, fileRecordsExtentSum,
      List.sum_cons] at ih ⊢
    rw [ih]
    simp [FileEntry.eraseLba, FileEntry.directoryRecord, DirectoryRecord.extent]

theorem eraseDirList_extentSum (ds : List (String × DirectoryEntry)) :
    dirRecordsExtentSum (eraseDirList ds) = dirRecordsExtentSum ds := by
  induction ds with
  | nil => rw [eraseDirList]
  | cons p rest ih =>
    rw [eraseDirList]
    simp only [dirRecordsExtentSum, List.map_cons, List.sum_cons] at ih ⊢
    rw [ih, childDirRecordExtent, eraseLba_name]
    rfl

theorem dataLength_eraseLba (d : DirectoryEntry) :
    d.eraseLba.dataLength = d.dataLength := by
  cases d with
  | mk l nm ds fs =>
    rw [DirectoryEntry.eraseLba]
    simp only [DirectoryEntry.dataLength, DirectoryEntry.directoryRecord]
    rw [eraseFileList_extentSum, eraseDirList_extentSum]

theorem dataLength_congr (d d' : DirectoryEntry)
    (h : d.eraseLba = d'.eraseLba) : d.dataLength = d'.dataLength := by
  rw [← dataLength_eraseLba d, ← dataLength_eraseLba d', h]

theorem rootDataLength_eraseLba (r : RootDirectory) :
    r.eraseLba.dataLength = r.dataLength := by
  simp only [RootDirectory.eraseLba, RootDirectory.dataLength,
    RootDirectory.rootDirectoryRecord]
  rw [eraseFileList_extentSum, eraseDirList_extentSum]

theorem allocateFileList_congr (fs fs' : List (String × FileEntry))
    (a : LbaAllocator) (h : eraseFileList fs = eraseFileList fs') :
    allocateFileList fs a = allocateFileList fs' a := by
  induction fs generalizing fs' a with
  | nil =>
    cases fs' with
    | nil => rfl
    | cons p r' => simp [eraseFileList] at h
  | cons p r ih =>
    obtain ⟨k, f⟩ := p
    obtain ⟨fl, fn, fc⟩ := f
    cases fs' with
    | nil => simp [eraseFileList] at h
    | cons p' r' =>
      obtain ⟨k', f'⟩ := p'
      obtain ⟨fl', fn', fc'⟩ := f'
      simp only [eraseFileList, List.map_cons, List.cons.injEq, Prod.mk.injEq,
        FileEntry.eraseLba, FileEntry.mk.injEq] at h
      obtain ⟨⟨hk, _, hn, hc⟩, hr⟩ := h
      simp only [allocateFileList, FileEntry.allocateLbas,
        FileEntry.directoryRecord, hc, hn, hk]
      rw [ih r' _ (by simpa [eraseFileList] using hr)]

mutual

theorem allocateLbas_congr (d d' : DirectoryEntry) (a : LbaAllocator)
    (h : d.eraseLba = d'.eraseLba) : d.allocateLbas a = d'.allocateLbas a :=
  match d, d' with
  | .mk l nm ds fs, .mk l' nm' ds' fs' => by
    have hsize : (DirectoryEntry.mk l nm ds fs).dataLength
        = (DirectoryEntry.mk l' nm' ds' fs').dataLength := dataLength_congr _ _ h
    rw [DirectoryEntry.eraseLba, DirectoryEntry.eraseLba] at h
    injection h with _ hnm hds hfs
    rw [DirectoryEntry.allocateLbas, DirectoryEntry.allocateLbas, hsize, hnm,
      allocateDirList_congr ds ds' _ hds, allocateFileList_congr fs fs' _ hfs]
termination_by sizeOf d
decreasing_by all_goals simp_wf <;> omega

theorem allocateDirList_congr (l l' : List (String × DirectoryEntry))
    (a : LbaAllocator) (h : eraseDirList l = eraseDirList l') :
    allocateDirList l a = allocateDirList l' a :=
  match l, l' with
  | [], [] => rfl
  | [], (k', d') :: r' => by
    rw [eraseDirList, eraseDirList] at h
    exact absurd h (by simp)
  | (k, d) :: r, [] => by
    rw [eraseDirList, eraseDirList] at h
    exact absurd h (by simp)
  | (k, d) :: r, (k', d') :: r' => by
    rw [eraseDirList, eraseDirList] at h
    simp only [List.cons.injEq, Prod.mk.injEq] at h
    obtain ⟨⟨hk, hd⟩, hr⟩ := h
    simp only [allocateDirList]
    rw [allocateLbas_congr d d' a hd, hk, allocateDirList_congr r r' _ hr]
termination_by sizeOf l
decreasing_by all_goals simp_wf <;> omega

end

theorem eraseFileList_allocateFileList (fs : List (String × FileEntry))
    (a : LbaAllocator) :
    eraseFileList (allocateFileList fs a).1 = eraseFileList fs := by
  induction fs generalizing a with
  | nil => rfl
  | cons p rest ih =>
    obtain ⟨k, f⟩ := p
    simp only [allocateFileList, eraseFileList, List.map_cons]
    rw [show (allocateFileList rest (f.allocateLbas a).2).1.map
        (fun nf => (nf.1, nf.2.eraseLba))
      = eraseFileList (allocateFileList rest (f.allocateLbas a).2).1 from rfl]
    rw [ih]
    rfl

mutual

theorem eraseLba_allocateLbas (d : DirectoryEntry) (a : LbaAllocator) :
    (d.allocateLbas a).1.eraseLba = d.eraseLba :=
  match d with
  | .mk l nm ds fs => by
    rw [DirectoryEntry.allocateLbas]
    simp only
    rw [DirectoryEntry.eraseLba, DirectoryEntry.eraseLba]
    rw [eraseDirList_allocateDirList, eraseFileList_allocateFileList]
termination_by sizeOf d
decreasing_by all_goals simp_wf <;> omega

theorem eraseDirList_allocateDirList (l : List (String × DirectoryEntry))
    (a : LbaAllocator) :
    eraseDirList (allocateDirList l a).1 = eraseDirList l :=
  match l with
  | [] => by rw [allocateDirList]
  | (k, d) :: rest => by
    simp only [allocateDirList]
    rw [eraseDirList, eraseDirList]
    rw [eraseLba_allocateLbas d a, eraseDirList_allocateDirList rest _]
termination_by sizeOf l
decreasing_by all_goals simp_wf <;> omega

end

theorem root_allocate_congr (t t' : RootDirectory) (a : LbaAllocator)
    (h : t.eraseLba = t'.eraseLba) : t.allocateLbas a = t'.allocateLbas a := by
  have hsize : t.rootDirectoryRecord.dataLength
      = t'.rootDirectoryRecord.dataLength := by
    have := congrArg RootDirectory.dataLength h
    rwa [rootDataLength_eraseLba, rootDataLength_eraseLba] at this
  simp only [RootDirectory.eraseLba, RootDirectory.mk.injEq] at h
  obtain ⟨_, hds, hfs⟩ := h
  simp only [RootDirectory.allocateLbas, hsize]
  rw [allocateDirList_congr t.dirs t'.dirs _ hds,
    allocateFileList_congr t.files t'.files _ hfs]

theorem root_eraseLba_allocate (t : RootDirectory) (a : LbaAllocator) :
    (t.allocateLbas a).1.eraseLba = t.eraseLba := by
  simp only [RootDirectory.allocateLbas, RootDirectory.eraseLba]
  rw [eraseDirList_allocateDirList, eraseFileList_allocateFileList]

/-- C8: address allocation is a pure function of the tree's shape (the tree
with all assigned addresses erased — names, structure and content sizes) and
of the allocator's sector size and starting offset: two trees of identical
shape receive identical assignments, and running the pass twice on the same
tree with a fresh identical allocator reassigns exactly the same addresses. -/
theorem allocation_pure_function (t t' : RootDirectory) (a : LbaAllocator)
    (h : t.eraseLba = t'.eraseLba) :
    t.allocateLbas a = t'.allocateLbas a ∧
    (t.allocateLbas a).1.allocateLbas a = t.allocateLbas a :=
  ⟨root_allocate_congr t t' a h,
   root_allocate_congr (t.allocateLbas a).1 t a (root_eraseLba_allocate t a)⟩

/-- C8 witness: two trees equal up to previously assigned addresses. -/
theorem allocation_pure_function_witness :
    (RootDirectory.mk (some 5) [("A", .mk (some 7) "A" [] [])]
        [("F", ⟨some 9, "F", .inMemory [1, 2]⟩)]).allocateLbas ⟨2048, 20⟩
      = (RootDirectory.mk none [("A", .mk none "A" [] [])]
          [("F", ⟨none, "F", .inMemory [1, 2]⟩)]).allocateLbas ⟨2048, 20⟩ ∧
    ((RootDirectory.mk (some 5) [("A", .mk (some 7) "A" [] [])]
        [("F", ⟨some 9, "F", .inMemory [1, 2]⟩)]).allocateLbas
          ⟨2048, 20⟩).1.allocateLbas ⟨2048, 20⟩
      = (RootDirectory.mk (some 5) [("A", .mk (some 7) "A" [] [])]
          [("F", ⟨some 9, "F", .inMemory [1, 2]⟩)]).allocateLbas ⟨2048, 20⟩ :=
  allocation_pure_function _ _ ⟨2048, 20⟩
    (by simp [RootDirectory.eraseLba, DirectoryEntry.eraseLba, eraseDirList,
      eraseFileList, FileEntry.eraseLba])

/-- Fields of `spec::PathTableRecord`; the directory identifier is modelled
as the name itself (the out-of-`src` `standard_directory_identifier`
constructor never fails for the tree's bounded names; the root record uses
the empty root identifier). -/
structure PathTableRecord where
  directoryIdentifierLength : Nat
  extentLocation : Nat
  parentDirectoryNumber : Nat
  directoryIdentifier : String
deriving DecidableEq

mutual

/-- The `aggregate` closure of `PathTable::build_from_filesystem`
(`writer.rs` lines 105-128): computes the record's own 1-based index
`ix = records.len() as u16 + 1` before pushing (modelled with `% 2^16` for
the `u16` cast), pushes one record carrying the directory's name, assigned
address and the parent's emission index, and then descends into the
subdirectories with `ix`; a directory with an unassigned address is
skipped (the `?` failure is discarded by the caller's `for_each`). -/
def aggregate (dir : DirectoryEntry) (parentIx : Nat)
    (records : List PathTableRecord) : List PathTableRecord :=
  match dir with
  | .mk none _ _ _ => records
  | .mk (some lba) nm ds _ =>
    aggregateChildren ds ((records.length % U16 + 1) % U16)
      (records ++ [⟨nm.utf8ByteSize % 256, lba, parentIx, nm⟩])
termination_by sizeOf dir
decreasing_by all_goals simp_wf <;> omega

/-- The `dir.dirs.values().for_each(...)` loop of `aggregate`. -/
def aggregateChildren (l : List (String × DirectoryEntry)) (ix : Nat)
    (records : List PathTableRecord) : List PathTableRecord :=
  match l with
  | [] => records
  | (_, d) :: rest => aggregateChildren rest ix (aggregate d ix records)
termination_by sizeOf l
decreasing_by all_goals simp_wf <;> omega

end

/-- Function `PathTable::build_from_filesystem` (`writer.rs` lines 104-151):
`None` when the root has no assigned address; otherwise the root record
(identifier length 1, parent-of-self 1) followed by a pre-order aggregation
of every subdirectory with parent index 1. -/
def buildPathTable (r : RootDirectory) : Option (List PathTableRecord) :=
  match r.dataLba with
  | none => none
  | some lba => some (aggregateChildren r.dirs 1 [⟨1, lba, 1, ""⟩])

mutual

/-- Specification counterpart of `aggregate` with explicit indices: the
record of a directory emitted at global 1-based position `myIx` gives all of
its children's records the parent index `myIx`. -/
def specSubtree (d : DirectoryEntry) (parentIx myIx : Nat) :
    List PathTableRecord :=
  match d with
  | .mk none _ _ _ => []
  | .mk (some lba) nm ds _ =>
    ⟨nm.utf8ByteSize % 256, lba, parentIx, nm⟩
      :: specChildren ds myIx (myIx + 1)
termination_by sizeOf d
decreasing_by all_goals simp_wf <;> omega

/-- Specification counterpart of `aggregateChildren`: `nextIx` is the global
1-based position where the next record will be emitted. -/
def specChildren (l : List (String × DirectoryEntry)) (parentIx nextIx : Nat) :
    List PathTableRecord :=
  match l with
  | [] => []
  | (_, d) :: rest =>
    specSubtree d parentIx nextIx
      ++ specChildren rest parentIx
          (nextIx + (specSubtree d parentIx nextIx).length)
termination_by sizeOf l
decreasing_by all_goals simp_wf <;> omega

end

mutual

/-- Number of path-table records a directory subtree emits. -/
def countSubtree (d : DirectoryEntry) : Nat :=
  match d with
  | .mk none _ _ _ => 0
  | .mk (some _) _ ds _ => 1 + countList ds
termination_by sizeOf d
decreasing_by all_goals simp_wf <;> omega

/-- Number of path-table records a subdirectory list emits. -/
def countList (l : List (String × DirectoryEntry)) : Nat :=
  match l with
  | [] => 0
  | (_, d) :: rest => countSubtree d + countList rest
termination_by sizeOf l
decreasing_by all_goals simp_wf <;> omega

end

mutual

theorem specSubtree_length (d : DirectoryEntry) (p i : Nat) :
    (specSubtree d p i).length = countSubtree d :=
  match d with
  | .mk none nm ds fs => by
    rw [specSubtree, countSubtree]
    rfl
  | .mk (some lba) nm ds fs => by
    rw [specSubtree, countSubtree]
    simp only [List.length_cons]
    rw [specChildren_length]
    omega
termination_by sizeOf d
decreasing_by all_goals simp_wf <;> omega

theorem specChildren_length (l : List (String × DirectoryEntry)) (p i : Nat) :
    (specChildren l p i).length = countList l :=
  match l with
  | [] => by
    rw [specChildren, countList]
    rfl
  | (k, d) :: rest => by
    rw [specChildren, countList]
    simp only [List.length_append]
    rw [specSubtree_length, specChildren_length]
termination_by sizeOf l
decreasing_by all_goals simp_wf <;> omega

end

mutual

theorem aggregate_spec (d : DirectoryEntry) (p : Nat)
    (acc : List PathTableRecord)
    (h : acc.length + countSubtree d ≤ 65535) :
    aggregate d p acc = acc ++ specSubtree d p (acc.length + 1) :=
  match d with
  | .mk none nm ds fs => by
    rw [aggregate, specSubtree]
    simp
  | .mk (some lba) nm ds fs => by
    rw [countSubtree] at h
    rw [aggregate, specSubtree]
    have hlen : acc.length < U16 := by
      have : (65535 : Nat) < U16 := by decide
      omega
    have hix : (acc.length % U16 + 1) % U16 = acc.length + 1 := by
      rw [Nat.mod_eq_of_lt hlen, Nat.mod_eq_of_lt (by
        have : (65536 : Nat) = U16 := by decide
        omega)]
    rw [hix]
    have hspec := aggregateChildren_spec ds (acc.length + 1)
      (acc ++ [(⟨nm.utf8ByteSize % 256, lba, p, nm⟩ : PathTableRecord)])
      (by simp only [List.length_append, List.length_cons, List.length_nil]
          omega)
    rw [hspec]
    simp only [List.length_append, List.length_cons, List.length_nil,
      List.append_assoc, List.cons_append, List.nil_append]
termination_by sizeOf d
decreasing_by all_goals simp_wf <;> omega

theorem aggregateChildren_spec (l : List (String × DirectoryEntry))
    (ix : Nat) (acc : List PathTableRecord)
    (h : acc.length + countList l ≤ 65535) :
    aggregateChildren l ix acc = acc ++ specChildren l ix (acc.length + 1) :=
  match l with
  | [] => by
    rw [aggregateChildren, specChildren]
    simp
  | (k, d) :: rest => by
    rw [countList] at h
    rw [aggregateChildren, specChildren]
    rw [aggregate_spec d ix acc (by omega)]
    rw [aggregateChildren_spec rest ix
      (acc ++ specSubtree d ix (acc.length + 1))
      (by simp only [List.length_append, specSubtree_length]; omega)]
    simp only [List.length_append, specSubtree_length, List.append_assoc]
    rw [show acc.length + countSubtree d + 1
        = acc.length + 1 + countSubtree d from by omega]
termination_by sizeOf l
decreasing_by all_goals simp_wf <;> omega

end

/-- Positional parent bound: the record at offset `j` of the list has a
parent index that is at least 1 and strictly below `m + j`; when the list's
first record sits at global 1-based position `m`, this says every record's
parent index points strictly before the record itself. -/
def parentUnder : List PathTableRecord → Nat → Prop
  | [], _ => True
  | r :: rest, m =>
    (1 ≤ r.parentDirectoryNumber ∧ r.parentDirectoryNumber < m)
      ∧ parentUnder rest (m + 1)

theorem parentUnder_append (S T : List PathTableRecord) (m : Nat) :
    parentUnder (S ++ T) m ↔ parentUnder S m ∧ parentUnder T (m + S.length) := by
  induction S generalizing m with
  | nil => simp [parentUnder]
  | cons r S ih =>
    constructor
    · rintro ⟨hb, hrest⟩
      obtain ⟨hS, hT⟩ := (ih (m + 1)).mp hrest
      refine ⟨⟨hb, hS⟩, ?_⟩
      rw [List.length_cons, show m + (S.length + 1) = m + 1 + S.length from
        by omega]
      exact hT
    · rintro ⟨⟨hb, hS⟩, hT⟩
      refine ⟨hb, (ih (m + 1)).mpr ⟨hS, ?_⟩⟩
      rw [List.length_cons, show m + (S.length + 1) = m + 1 + S.length from
        by omega] at hT
      exact hT

theorem parentUnder_mono (L : List PathTableRecord) (m m' : Nat)
    (h : m ≤ m') (hL : parentUnder L m) : parentUnder L m' := by
  induction L generalizing m m' with
  | nil => trivial
  | cons r rest ih =>
    obtain ⟨⟨h1, h2⟩, h3⟩ := hL
    exact ⟨⟨h1, lt_of_lt_of_le h2 h⟩, ih (m + 1) (m' + 1) (by omega) h3⟩

mutual

theorem specSubtree_parentUnder (d : DirectoryEntry) (p myIx : Nat)
    (hp1 : 1 ≤ p) (hpi : p < myIx) :
    parentUnder (specSubtree d p myIx) myIx :=
  match d with
  | .mk none nm ds fs => by
    rw [specSubtree]
    trivial
  | .mk (some lba) nm ds fs => by
    rw [specSubtree]
    refine ⟨⟨hp1, hpi⟩, ?_⟩
    exact specChildren_parentUnder ds myIx (myIx + 1) (by omega) (by omega)
termination_by sizeOf d
decreasing_by all_goals simp_wf <;> omega

theorem specChildren_parentUnder (l : List (String × DirectoryEntry))
    (p nx : Nat) (hp1 : 1 ≤ p) (hpn : p < nx) :
    parentUnder (specChildren l p nx) nx :=
  match l with
  | [] => by rw [specChildren]; trivial
  | (k, d) :: rest => by
    rw [specChildren]
    rw [parentUnder_append]
    refine ⟨specSubtree_parentUnder d p nx hp1 hpn, ?_⟩
    exact specChildren_parentUnder rest p
      (nx + (specSubtree d p nx).length) hp1 (by omega)
termination_by sizeOf l
decreasing_by all_goals simp_wf <;> omega

end

/-- C3: for a tree whose root is address-assigned and that emits at most
65535 path-table records (the `u16` index bound of the format), the built
record list starts with the root record at 1-based index 1 with
parent-of-self 1, and equals the specification list in which every
directory's children records carry as parent index exactly the 1-based
emission position of that directory's own record (the `myIx` threading of
`specSubtree` / `specChildren`); moreover every non-root record's parent
index is at least 1 and strictly less than the record's own 1-based index,
i.e. the parent record is always emitted strictly earlier. -/
theorem path_table_parent_ordering (r : RootDirectory) (lba : Nat)
    (hroot : r.dataLba = some lba)
    (hcount : 1 + countList r.dirs ≤ 65535) :
    buildPathTable r
      = some ((⟨1, lba, 1, ""⟩ : PathTableRecord)
          :: specChildren r.dirs 1 2) ∧
    parentUnder (specChildren r.dirs 1 2) 2 := by
  constructor
  · rw [buildPathTable, hroot]
    simp only
    rw [aggregateChildren_spec r.dirs 1 [⟨1, lba, 1, ""⟩]
      (by simpa using hcount)]
    rfl
  · exact specChildren_parentUnder r.dirs 1 2 (by omega) (by omega)

/-- C3 witness: a fully assigned tree with a nested and a sibling
directory. -/
theorem path_table_parent_ordering_witness :
    buildPathTable (RootDirectory.mk (some 20)
        [("A", .mk (some 21) "A" [("B", .mk (some 22) "B" [] [])] []),
          ("C", .mk (some 23) "C" [] [])] [])
      = some ((⟨1, 20, 1, ""⟩ : PathTableRecord)
          :: specChildren
              [("A", .mk (some 21) "A" [("B", .mk (some 22) "B" [] [])] []),
                ("C", .mk (some 23) "C" [] [])] 1 2) ∧
    parentUnder (specChildren
        [("A", .mk (some 21) "A" [("B", .mk (some 22) "B" [] [])] []),
          ("C", .mk (some 23) "C" [] [])] 1 2) 2 :=
  path_table_parent_ordering _ 20 rfl
    (by simp [countList, countSubtree])

end Isofs
